import Mathlib

set_option linter.unusedVariables false

/-! Shallow embedding of the AlphaZero-style MCTS engine described in spec.md.
The engine itself (mcts.py), the concrete games and the evaluator stub are not
part of src/; they are modelled from the spec and validated against the exact
edge statistics asserted by src/tests/mcts_tests.py. -/

/-- One outgoing edge of a tree node: the action it represents, the visit
count N, the running mean action value Q, and the prior P. -/
structure Edge where
  action : ℕ
  N : ℕ
  Q : ℚ
  P : ℚ
deriving DecidableEq, Repr

/-- Default edge, used only as the fall-back of safe list indexing. -/
def edgeDefault : Edge := ⟨0, 0, 0, 0⟩

/-- The search tree: an association list from (hash-identified) state to its
edge table, newest node first. -/
abbrev STree (σ : Type) := List (σ × List Edge)

def lookupTree {σ : Type} [DecidableEq σ] : STree σ → σ → Option (List Edge)
  | [], _ => none
  | (s', es) :: rest, s => if s = s' then some es else lookupTree rest s

def insertTree {σ : Type} (t : STree σ) (s : σ) (es : List Edge) : STree σ :=
  (s, es) :: t

/-- Backup update of one edge: first increment N, then move Q toward the
backed-up value by (val - Q)/N. -/
def updEdge (val : ℚ) (e : Edge) : Edge :=
  { e with N := e.N + 1, Q := e.Q + (val - e.Q) / ((e.N : ℚ) + 1) }

/-- Apply f to the element at position i, leaving the rest unchanged. -/
def modIdx (f : Edge → Edge) : ℕ → List Edge → List Edge
  | _, [] => []
  | 0, e :: es => f e :: es
  | i + 1, e :: es => e :: modIdx f i es

def updateTree {σ : Type} [DecidableEq σ] (t : STree σ) (s : σ) (i : ℕ) (val : ℚ) :
    STree σ :=
  t.map (fun p => (p.1, if p.1 = s then modIdx (updEdge val) i p.2 else p.2))

def keysOf {σ : Type} (t : STree σ) : List σ := t.map Prod.fst

/-- Total visit count of an edge table. -/
def nsum (es : List Edge) : ℕ := (es.map Edge.N).sum

def rootNsum {σ : Type} [DecidableEq σ] (t : STree σ) (s : σ) : ℕ :=
  match lookupTree t s with
  | some es => nsum es
  | none => 0

/-- Exact decision of `e * √n ≤ d` for rationals e and d and a natural n. -/
def sqrtScaleLe (n : ℕ) (e d : ℚ) : Bool :=
  if 0 ≤ e then decide (0 ≤ d) && decide (e ^ 2 * (n : ℚ) ≤ d ^ 2)
  else if 0 ≤ d then true
  else decide (d ^ 2 ≤ e ^ 2 * (n : ℚ))

/-- Coefficient of √Nsum in the PUCT score of an edge: P / (1 + N). -/
def coefQ (e : Edge) : ℚ := e.P / (1 + (e.N : ℚ))

/-- Decides U(a) ≤ U(b) where U(x) = Q + P·√n/(1 + N), exactly. -/
def puctLe (n : ℕ) (a b : Edge) : Bool :=
  sqrtScaleLe n (coefQ a - coefQ b) (b.Q - a.Q)

/-- Fold returning the index of the first maximal element: a candidate replaces
the incumbent only when strictly better. -/
def bestIdxAux {α : Type} (better : α → α → Bool) :
    List α → α → ℕ → ℕ → ℕ
  | [], _, bi, _ => bi
  | x :: xs, b, bi, i =>
    if better x b then bestIdxAux better xs x i (i + 1)
    else bestIdxAux better xs b bi (i + 1)

def bestIdx {α : Type} (better : α → α → Bool) : List α → ℕ
  | [] => 0
  | x :: xs => bestIdxAux better xs x 0 1

/-- PUCT selection: index of the edge maximizing the PUCT score, the
first-listed edge winning ties. -/
def selectEdge (es : List Edge) : ℕ :=
  bestIdx (fun a b => !puctLe (nsum es) a b) es

/-- Index of the edge with the largest visit count, earliest wins ties. -/
def argmaxN (es : List Edge) : ℕ :=
  bestIdx (fun a b => decide (b.N < a.N)) es

/-- Modelled from the spec: the Game contract of section 4.1 (the concrete
game implementations of the repository are not part of src/). -/
structure GameM (σ : Type) where
  numPlayers : ℕ
  currentPlayer : σ → ℕ
  legalActions : σ → List ℕ
  takeAction : σ → ℕ → σ
  isTerminal : σ → Bool
  terminalValue : σ → ℕ → ℚ

/-- Modelled from the spec: the Evaluator contract of section 4.2 (the neural
network wrapper and the biased stub are not part of src/). -/
structure EvaluatorM (σ : Type) where
  prior : σ → ℕ → ℚ
  value : σ → ℚ

/-- Mask the dense prior to the legal actions and renormalize; fall back to
the uniform distribution when the masked mass is zero. -/
def maskedPrior (legal : List ℕ) (pr : ℕ → ℚ) : List ℚ :=
  if (legal.map pr).sum = 0 then legal.map (fun _ => 1 / (legal.length : ℚ))
  else (legal.map pr).map (fun x => x / (legal.map pr).sum)

/-- Edges of a freshly expanded node: one per legal action in canonical order,
N = 0, Q = 0, P the masked renormalized prior. -/
def expandEdges {σ : Type} (g : GameM σ) (ev : EvaluatorM σ) (s : σ) : List Edge :=
  ((g.legalActions s).zip (maskedPrior (g.legalActions s) (ev.prior s))).map
    (fun p => ⟨p.1, 0, 0, p.2⟩)

/-- Leaf value vector for an evaluator leaf: the evaluator value at the leaf
player's entry, 0 elsewhere. -/
def evalVec {σ : Type} (g : GameM σ) (ev : EvaluatorM σ) (s : σ) : ℕ → ℚ :=
  fun p => if p = g.currentPlayer s then ev.value s else 0

/-- Backup: walk the traversal stack leaf-to-root carrying the leaf value
vector; a zero entry for the parent player is first filled with the negated
leaf-player value, then the edge receives the entry for the parent player. -/
def backup {σ : Type} [DecidableEq σ] (g : GameM σ) :
    List (σ × ℕ) → (ℕ → ℚ) → ℕ → STree σ → STree σ
  | [], _, _, t => t
  | (s, i) :: rest, v, lp, t =>
    if v (g.currentPlayer s) = 0 then
      backup g rest (Function.update v (g.currentPlayer s) (-(v lp))) lp
        (updateTree t s i (-(v lp)))
    else
      backup g rest v lp (updateTree t s i (v (g.currentPlayer s)))

inductive LeafInfo (σ : Type) where
  | term : σ → LeafInfo σ
  | expanded : σ → LeafInfo σ
deriving DecidableEq

/-- Modelled from the spec: one selection→expansion→evaluation→backup
traversal (section 4.3.3), with explicit fuel standing in for termination of
the selection descent. Returns the new tree, the traversal stack (deepest
entry first) and the reached leaf. -/
def simLoop {σ : Type} [DecidableEq σ] (g : GameM σ) (ev : EvaluatorM σ) :
    ℕ → σ → STree σ → List (σ × ℕ) → Option (STree σ × List (σ × ℕ) × LeafInfo σ)
  | 0, _, _, _ => none
  | fuel + 1, s, t, stack =>
    if g.isTerminal s then
      some (backup g stack (g.terminalValue s) (g.currentPlayer s) t, stack, .term s)
    else
      match lookupTree t s with
      | none =>
        some (backup g stack (evalVec g ev s) (g.currentPlayer s)
            (insertTree t s (expandEdges g ev s)), stack, .expanded s)
      | some es =>
        simLoop g ev fuel (g.takeAction s ((es.getD (selectEdge es) edgeDefault).action)) t
          ((s, selectEdge es) :: stack)

/-- One simulate(s) call: mutate the tree by exactly one traversal. -/
def simulate {σ : Type} [DecidableEq σ] (g : GameM σ) (ev : EvaluatorM σ)
    (fuel : ℕ) (s : σ) (t : STree σ) : STree σ :=
  match simLoop g ev fuel s t [] with
  | none => t
  | some r => r.1

/-- k successive simulate calls from the same state. -/
def simN {σ : Type} [DecidableEq σ] (g : GameM σ) (ev : EvaluatorM σ)
    (fuel : ℕ) : ℕ → σ → STree σ → STree σ
  | 0, _, t => t
  | k + 1, s, t => simulate g ev fuel s (simN g ev fuel k s t)

/-- Modelled from the spec: claim C2's uniform two-valued sign rule — a parent
shares the leaf's value iff it is the same player, otherwise negated. -/
def claimSign (parentP leafP : ℕ) (v : ℚ) : ℚ :=
  if parentP = leafP then v else -v

/-- Modelled from the spec: backup as claim C2 words it, applying the
two-valued sign rule to a scalar leaf value at every stack entry. -/
def backupScalar {σ : Type} [DecidableEq σ] (g : GameM σ) :
    List (σ × ℕ) → ℕ → ℚ → STree σ → STree σ
  | [], _, _, t => t
  | (s, i) :: rest, lp, val, t =>
    backupScalar g rest lp val (updateTree t s i (claimSign (g.currentPlayer s) lp val))

/-- Backup in which every stack entry receives the leaf vector's entry for its
own player, with no filling. -/
def backupOwn {σ : Type} [DecidableEq σ] (g : GameM σ) :
    List (σ × ℕ) → (ℕ → ℚ) → STree σ → STree σ
  | [], _, t => t
  | (s, i) :: rest, v, t =>
    backupOwn g rest v (updateTree t s i (v (g.currentPlayer s)))

/-- The PUCT score over the reals: U = Q + P·√Nsum/(1 + N). -/
noncomputable def Ureal (n : ℕ) (e : Edge) : ℝ :=
  (e.Q : ℝ) + (e.P : ℝ) * Real.sqrt (n : ℝ) / (1 + (e.N : ℝ))

/-- Modelled from the spec: distribution extraction (section 4.3.5). At τ = 0
all mass goes to the first edge of maximal N; at τ > 0 the entries are
N^(1/τ) renormalized, uniform over the edges when every N is zero. -/
noncomputable def getDist (es : List Edge) (τ : ℝ) : List (ℕ × ℝ) :=
  if τ = 0 then
    es.enum.map (fun p => (p.2.action, if p.1 = argmaxN es then (1 : ℝ) else 0))
  else if es.all (fun e => decide (e.N = 0)) then
    es.map (fun e => (e.action, 1 / (es.length : ℝ)))
  else
    es.map (fun e =>
      (e.action, (e.N : ℝ) ^ (1 / τ) / (es.map (fun f => (f.N : ℝ) ^ (1 / τ))).sum))

/-- Modelled from the spec: one-player 2×2 GuessIt (spec scenarios 1–3; the
games package is not part of src/). Cells are row-major; picking the
bottom-right cell ends the game with reward 1. -/
def onePlayerGuessIt : GameM (List Bool) where
  numPlayers := 1
  currentPlayer _ := 0
  legalActions s := (List.range 4).filter (fun i => !s.getD i true)
  takeAction s a := s.set a true
  isTerminal s := s.getD 3 false
  terminalValue _ _ := 1

def opgInit : List Bool := [false, false, false, false]

/-- Modelled from the spec: two-player 2×2 GuessIt (spec scenario 4). Marks
record the mover; the mover who picks the bottom-right cell wins +1, the
opponent receives -1; the mover alternates with the number of marks. -/
def twoPlayerGuessIt : GameM (List (Option ℕ)) where
  numPlayers := 2
  currentPlayer s := (s.filter Option.isSome).length % 2
  legalActions s := (List.range 4).filter (fun i => (s.getD i none).isNone)
  takeAction s a := s.set a (some ((s.filter Option.isSome).length % 2))
  isTerminal s := (s.getD 3 none).isSome
  terminalValue s p :=
    match s.getD 3 none with
    | some w => if p = w then 1 else -1
    | none => 0

def tpgInit : List (Option ℕ) := [none, none, none, none]

/-- Modelled from the spec: three-player linear LeapFrog (spec scenario 5): a
chain of five forced moves with players rotating; the player who makes the
last move wins +1 and the other two receive -1. State = number of moves. -/
def linearLeapFrog : GameM ℕ where
  numPlayers := 3
  currentPlayer s := s % 3
  legalActions s := if s < 5 then [0] else []
  takeAction s _ := s + 1
  isTerminal s := decide (5 ≤ s)
  terminalValue _ p := if p = 1 then 1 else -1

/-- Modelled from the spec: a one-player game whose only move from the root
reaches a terminal state of reward 1, used to track root visit counts. -/
def stepGame : GameM ℕ where
  numPlayers := 1
  currentPlayer _ := 0
  legalActions s := if s = 0 then [0] else []
  takeAction s _ := s + 1
  isTerminal s := decide (1 ≤ s)
  terminalValue _ _ := 1

/-- Modelled from the spec: the biased evaluator stub wrapped by the tests
(NeuralNetwork with BiasedNet): a uniform prior over the full action space
and a constant value of 1/2. -/
def opgEval : EvaluatorM (List Bool) := ⟨fun _ _ => 1 / 4, fun _ => 1 / 2⟩

def tpgEval : EvaluatorM (List (Option ℕ)) := ⟨fun _ _ => 1 / 4, fun _ => 1 / 2⟩

def lfEval : EvaluatorM ℕ := ⟨fun _ _ => 1, fun _ => 1 / 2⟩

def stepEval : EvaluatorM ℕ := ⟨fun _ _ => 1, fun _ => 1 / 2⟩

/-! ### Correctness of the exact PUCT comparison -/

theorem sqrtScaleLe_iff (n : ℕ) (e d : ℚ) :
    sqrtScaleLe n e d = true ↔ (e : ℝ) * Real.sqrt (n : ℝ) ≤ (d : ℝ) := by
  unfold sqrtScaleLe
  by_cases he : (0 : ℚ) ≤ e
  · have he' : (0 : ℝ) ≤ (e : ℝ) := by exact_mod_cast he
    have key : (e : ℝ) * Real.sqrt (n : ℝ) = Real.sqrt ((e : ℝ) ^ 2 * (n : ℝ)) := by
      rw [Real.sqrt_mul (sq_nonneg _), Real.sqrt_sq he']
    rw [key]
    simp only [he, if_true, Bool.and_eq_true, decide_eq_true_eq, Real.sqrt_le_iff]
    constructor
    · rintro ⟨hd, hsq⟩
      exact ⟨by exact_mod_cast hd, by exact_mod_cast hsq⟩
    · rintro ⟨hd, hsq⟩
      exact ⟨by exact_mod_cast hd, by exact_mod_cast hsq⟩
  · have he' : (e : ℝ) < 0 := by
      have : e < 0 := lt_of_not_le he
      exact_mod_cast this
    by_cases hd : (0 : ℚ) ≤ d
    · have hd' : (0 : ℝ) ≤ (d : ℝ) := by exact_mod_cast hd
      simp only [he, hd, if_false, if_true, true_iff]
      have : (e : ℝ) * Real.sqrt (n : ℝ) ≤ 0 :=
        mul_nonpos_iff.mpr (Or.inr ⟨le_of_lt he', Real.sqrt_nonneg _⟩)
      linarith
    · have hd' : (d : ℝ) < 0 := by
        have : d < 0 := lt_of_not_le hd
        exact_mod_cast this
      have key : Real.sqrt ((e : ℝ) ^ 2 * (n : ℝ)) = (-(e : ℝ)) * Real.sqrt (n : ℝ) := by
        rw [Real.sqrt_mul (sq_nonneg _), Real.sqrt_sq_eq_abs, abs_of_neg he']
      simp only [he, hd, if_false, decide_eq_true_eq]
      have hiff : (e : ℝ) * Real.sqrt (n : ℝ) ≤ (d : ℝ) ↔
          -(d : ℝ) ≤ Real.sqrt ((e : ℝ) ^ 2 * (n : ℝ)) := by
        rw [key]; constructor <;> intro h <;> linarith
      rw [hiff, Real.le_sqrt (by linarith) (by positivity), neg_sq]
      constructor
      · intro h
        exact_mod_cast h
      · intro h
        exact_mod_cast h

theorem puctLe_iff (n : ℕ) (a b : Edge) :
    puctLe n a b = true ↔ Ureal n a ≤ Ureal n b := by
  rw [puctLe, sqrtScaleLe_iff]
  have hca : ((coefQ a : ℚ) : ℝ) = (a.P : ℝ) / (1 + (a.N : ℝ)) := by
    rw [coefQ]; push_cast; ring
  have hcb : ((coefQ b : ℚ) : ℝ) = (b.P : ℝ) / (1 + (b.N : ℝ)) := by
    rw [coefQ]; push_cast; ring
  have hNa : (0 : ℝ) < 1 + (a.N : ℝ) := by positivity
  have hNb : (0 : ℝ) < 1 + (b.N : ℝ) := by positivity
  have ha : Ureal n a = (a.Q : ℝ) + ((coefQ a : ℚ) : ℝ) * Real.sqrt (n : ℝ) := by
    rw [Ureal, hca, div_mul_eq_mul_div]
  have hb : Ureal n b = (b.Q : ℝ) + ((coefQ b : ℚ) : ℝ) * Real.sqrt (n : ℝ) := by
    rw [Ureal, hcb, div_mul_eq_mul_div]
  rw [ha, hb]
  push_cast
  rw [sub_mul]
  constructor <;> intro h <;> linarith

/-! ### The first-argmax fold -/

theorem bestIdxAux_spec {α β : Type} [LinearOrder β] (better : α → α → Bool)
    (score : α → β) (hb : ∀ a b, better a b = true ↔ score b < score a) (d : α) :
    ∀ (xs : List α) (g : ℕ → β) (b : α) (bi i : ℕ),
      (∀ k, k < xs.length → g (i + k) = score (xs.getD k d)) →
      g bi = score b → bi < i →
      (∀ j, j < i → g j ≤ g bi) → (∀ j, j < bi → g j < g bi) →
      bestIdxAux better xs b bi i < i + xs.length ∧
      (∀ j, j < i + xs.length → g j ≤ g (bestIdxAux better xs b bi i)) ∧
      (∀ j, j < bestIdxAux better xs b bi i → g j < g (bestIdxAux better xs b bi i)) := by
  intro xs
  induction xs with
  | nil =>
    intro g b bi i hk hgb hbi hle hlt
    refine ⟨by simpa using hbi, ?_, ?_⟩
    · simpa using hle
    · intro j hj
      exact hlt j hj
  | cons x tail ih =>
    intro g b bi i hk hgb hbi hle hlt
    have hgi : g i = score x := by
      have := hk 0 (by simp)
      simpa using this
    have hshift : ∀ k, k < tail.length → g (i + 1 + k) = score (tail.getD k d) := by
      intro k hkl
      have h1 : i + (k + 1) = i + 1 + k := by omega
      have := hk (k + 1) (by simpa using Nat.succ_lt_succ hkl)
      rw [h1] at this
      simpa using this
    have hlen : i + (x :: tail).length = i + 1 + tail.length := by
      simp only [List.length_cons]; omega
    by_cases hxb : better x b = true
    · have hxlt : score b < score x := (hb x b).mp hxb
      have hres := ih g x i (i + 1) hshift hgi (Nat.lt_succ_self i)
        (fun j hj => by
          rcases Nat.lt_succ_iff_lt_or_eq.mp hj with h | h
          · exact le_of_lt (lt_of_le_of_lt (hle j h) (by rw [hgi, hgb]; exact hxlt))
          · subst h; exact le_refl _)
        (fun j hj => lt_of_le_of_lt (hle j hj) (by rw [hgi, hgb]; exact hxlt))
      rw [bestIdxAux, if_pos hxb, hlen]
      exact hres
    · have hxle : score x ≤ score b := le_of_not_lt (fun hc => hxb ((hb x b).mpr hc))
      have hres := ih g b bi (i + 1) hshift hgb (Nat.lt_succ_of_lt hbi)
        (fun j hj => by
          rcases Nat.lt_succ_iff_lt_or_eq.mp hj with h | h
          · exact hle j h
          · subst h; rw [hgi, hgb]; exact hxle)
        hlt
      rw [bestIdxAux, if_neg hxb, hlen]
      exact hres

theorem bestIdx_spec {α β : Type} [LinearOrder β] (better : α → α → Bool)
    (score : α → β) (hb : ∀ a b, better a b = true ↔ score b < score a) (d : α)
    (xs : List α) (hne : xs ≠ []) :
    bestIdx better xs < xs.length ∧
    (∀ j, j < xs.length →
      score (xs.getD j d) ≤ score (xs.getD (bestIdx better xs) d)) ∧
    (∀ j, j < bestIdx better xs →
      score (xs.getD j d) < score (xs.getD (bestIdx better xs) d)) := by
  match xs, hne with
  | x :: tail, _ =>
    have hres := bestIdxAux_spec better score hb d tail
      (fun j => score ((x :: tail).getD j d)) x 0 1
      (fun k hkl => by
        show score ((x :: tail).getD (1 + k) d) = score (tail.getD k d)
        have h1 : 1 + k = k + 1 := by omega
        rw [h1, List.getD_cons_succ])
      (by show score ((x :: tail).getD 0 d) = score x; rw [List.getD_cons_zero])
      Nat.zero_lt_one
      (fun j hj => by
        have hj0 : j = 0 := by omega
        subst hj0; exact le_refl _)
      (fun j hj => absurd hj (Nat.not_lt_zero j))
    rw [bestIdx]
    have hlen : 1 + tail.length = (x :: tail).length := by
      simp only [List.length_cons]; omega
    rw [hlen] at hres
    exact hres

/-! ### Claim C1 -/

/-- Claim C1. At every expanded non-terminal node the engine selects the edge
maximizing the PUCT score U(i) = Qᵢ + Pᵢ·√Nsum/(1+Nᵢ) with the exploration
constant fixed at 1; ties break to the first-listed edge (every earlier edge
scores strictly lower than the selected one, every edge scores no higher); and
at a freshly expanded node, where all N = 0 and Q = 0, the first legal action
is selected. -/
theorem C1_puct_selection (es : List Edge) (hne : es ≠ []) :
    selectEdge es < es.length ∧
    (∀ j, j < es.length →
      Ureal (nsum es) (es.getD j edgeDefault) ≤
        Ureal (nsum es) (es.getD (selectEdge es) edgeDefault)) ∧
    (∀ j, j < selectEdge es →
      Ureal (nsum es) (es.getD j edgeDefault) <
        Ureal (nsum es) (es.getD (selectEdge es) edgeDefault)) ∧
    ((∀ e ∈ es, e.N = 0 ∧ e.Q = 0) → selectEdge es = 0) := by
  have hb : ∀ a b : Edge, (!puctLe (nsum es) a b) = true ↔
      Ureal (nsum es) b < Ureal (nsum es) a := by
    intro a b
    rw [Bool.not_eq_true']
    constructor
    · intro h
      refine lt_of_not_le (fun hle => ?_)
      rw [(puctLe_iff (nsum es) a b).mpr hle] at h
      exact absurd h (by decide)
    · intro h
      cases hp : puctLe (nsum es) a b
      · rfl
      · exact absurd ((puctLe_iff (nsum es) a b).mp hp) (not_le.mpr h)
  have hmain := bestIdx_spec (fun a b => !puctLe (nsum es) a b)
    (Ureal (nsum es)) hb edgeDefault es hne
  have hsel : selectEdge es = bestIdx (fun a b => !puctLe (nsum es) a b) es := rfl
  rw [← hsel] at hmain
  refine ⟨hmain.1, hmain.2.1, hmain.2.2, ?_⟩
  intro hz
  have hn0 : nsum es = 0 := by
    rw [nsum]
    refine List.sum_eq_zero ?_
    intro x hx
    rcases List.mem_map.mp hx with ⟨e, he, rfl⟩
    exact (hz e he).1
  have hU : ∀ j, j < es.length → Ureal (nsum es) (es.getD j edgeDefault) = 0 := by
    intro j hj
    have hmem : es.getD j edgeDefault ∈ es := by
      rw [List.getD_eq_getElem es edgeDefault hj]
      exact List.getElem_mem hj
    obtain ⟨hN, hQ⟩ := hz _ hmem
    rw [Ureal, hn0, hN, hQ]
    simp
  by_contra hne0
  have hpos : 0 < selectEdge es := Nat.pos_of_ne_zero hne0
  have hlen0 : 0 < es.length := List.length_pos.mpr hne
  have h1 := hmain.2.2 0 hpos
  rw [hU 0 hlen0, hU _ hmain.1] at h1
  exact lt_irrefl 0 h1

/-- Witness for C1 at a concrete two-edge node. -/
theorem C1_puct_selection_w :
    selectEdge [⟨0, 1, 1/2, 1/4⟩, ⟨1, 0, 0, 1/4⟩] <
      ([⟨0, 1, 1/2, 1/4⟩, ⟨1, 0, 0, 1/4⟩] : List Edge).length ∧
    (∀ j, j < ([⟨0, 1, 1/2, 1/4⟩, ⟨1, 0, 0, 1/4⟩] : List Edge).length →
      Ureal (nsum [⟨0, 1, 1/2, 1/4⟩, ⟨1, 0, 0, 1/4⟩])
          ([⟨0, 1, 1/2, 1/4⟩, ⟨1, 0, 0, 1/4⟩].getD j edgeDefault) ≤
        Ureal (nsum [⟨0, 1, 1/2, 1/4⟩, ⟨1, 0, 0, 1/4⟩])
          ([⟨0, 1, 1/2, 1/4⟩, ⟨1, 0, 0, 1/4⟩].getD
            (selectEdge [⟨0, 1, 1/2, 1/4⟩, ⟨1, 0, 0, 1/4⟩]) edgeDefault)) ∧
    (∀ j, j < selectEdge [⟨0, 1, 1/2, 1/4⟩, ⟨1, 0, 0, 1/4⟩] →
      Ureal (nsum [⟨0, 1, 1/2, 1/4⟩, ⟨1, 0, 0, 1/4⟩])
          ([⟨0, 1, 1/2, 1/4⟩, ⟨1, 0, 0, 1/4⟩].getD j edgeDefault) <
        Ureal (nsum [⟨0, 1, 1/2, 1/4⟩, ⟨1, 0, 0, 1/4⟩])
          ([⟨0, 1, 1/2, 1/4⟩, ⟨1, 0, 0, 1/4⟩].getD
            (selectEdge [⟨0, 1, 1/2, 1/4⟩, ⟨1, 0, 0, 1/4⟩]) edgeDefault)) ∧
    ((∀ e ∈ ([⟨0, 1, 1/2, 1/4⟩, ⟨1, 0, 0, 1/4⟩] : List Edge), e.N = 0 ∧ e.Q = 0) →
      selectEdge [⟨0, 1, 1/2, 1/4⟩, ⟨1, 0, 0, 1/4⟩] = 0) :=
  C1_puct_selection [⟨0, 1, 1/2, 1/4⟩, ⟨1, 0, 0, 1/4⟩] (by decide)

/-! ### Claim C3 -/

theorem updEdge_foldl_stats (vs : List ℚ) :
    ∀ e : Edge,
      ((vs.foldl (fun e x => updEdge x e) e).N = e.N + vs.length) ∧
      ((vs.foldl (fun e x => updEdge x e) e).Q *
          ((e.N : ℚ) + (vs.length : ℚ)) = (e.N : ℚ) * e.Q + vs.sum) := by
  induction vs with
  | nil =>
    intro e
    constructor
    · simp
    · simp [mul_comm]
  | cons v tail ih =>
    intro e
    have hden : ((e.N : ℚ) + 1) ≠ 0 := by positivity
    have hstep : ((e.N : ℚ) + 1) * (updEdge v e).Q = (e.N : ℚ) * e.Q + v := by
      show ((e.N : ℚ) + 1) * (e.Q + (v - e.Q) / ((e.N : ℚ) + 1)) = (e.N : ℚ) * e.Q + v
      field_simp
      ring
    obtain ⟨hN, hQ⟩ := ih (updEdge v e)
    have hN1 : (updEdge v e).N = e.N + 1 := rfl
    constructor
    · rw [List.foldl_cons, hN, hN1, List.length_cons]
      omega
    · rw [List.foldl_cons]
      rw [hN1] at hQ
      simp only [List.length_cons]
      push_cast at hQ ⊢
      have h2 : ((e.N : ℚ) + 1) * (updEdge v e).Q + tail.sum =
          (e.N : ℚ) * e.Q + (v + tail.sum) := by
        rw [hstep]; ring
      calc (tail.foldl (fun e x => updEdge x e) (updEdge v e)).Q *
            ((e.N : ℚ) + ((tail.length : ℚ) + 1))
          = (tail.foldl (fun e x => updEdge x e) (updEdge v e)).Q *
            (((e.N : ℚ) + 1) + (tail.length : ℚ)) := by ring
        _ = ((e.N : ℚ) + 1) * (updEdge v e).Q + tail.sum := hQ
        _ = (e.N : ℚ) * e.Q + (v + tail.sum) := h2

/-- Claim C3. Backup updates an edge by first incrementing N and then setting
Q ← Q + (v − Q)/N, so after its visits an edge's Q is the running mean of the
values backed up through it: folding the per-visit update of the engine over
any nonempty list of values vs from statistics (N₀, Q₀) yields
Q = (N₀·Q₀ + Σvs)/(N₀ + |vs|). In particular a visit of value 1 onto
(N, Q) = (3, 1/2) yields (4, 5/8) and a second visit of value 1 onto (1, 1)
yields (2, 1). -/
theorem C3_running_mean (e : Edge) (v : ℚ) (vs : List ℚ) :
    updEdge v e = ⟨e.action, e.N + 1, e.Q + (v - e.Q) / ((e.N : ℚ) + 1), e.P⟩ ∧
    ((v :: vs).foldl (fun e x => updEdge x e) e).Q =
      ((e.N : ℚ) * e.Q + (v :: vs).sum) / ((e.N : ℚ) + ((v :: vs).length : ℚ)) ∧
    updEdge 1 ⟨0, 3, 1/2, 1/4⟩ = ⟨0, 4, 5/8, 1/4⟩ ∧
    updEdge 1 ⟨1, 1, 1, 1/2⟩ = ⟨1, 2, 1, 1/2⟩ := by
  refine ⟨rfl, ?_, by with_unfolding_all rfl, by with_unfolding_all rfl⟩
  have hpos : (0 : ℚ) < (e.N : ℚ) + (((v :: vs).length : ℕ) : ℚ) := by
    have h1 : (0 : ℚ) ≤ (e.N : ℚ) := by positivity
    have h2 : (0 : ℚ) < (((v :: vs).length : ℕ) : ℚ) := by
      have : 0 < (v :: vs).length := by simp
      exact_mod_cast this
    linarith
  rw [eq_div_iff (ne_of_gt hpos)]
  exact (updEdge_foldl_stats (v :: vs) e).2

/-! ### Claims C5 and C6: concrete scenarios -/

/-- Claim C5. In two-player GuessIt with a uniform prior, after the 5th
simulate(init) the fourth root action — the winning terminal move for
player 0 — has edge statistics (N, Q, P) = (1, 1, 1/4) while each of the
other three root edges has (1, -1/2, 1/4), exhibiting the two-player sign
flip during backup (matching test_two_player_guess_it). -/
theorem C5_two_player_guess_it :
    lookupTree (simN twoPlayerGuessIt tpgEval 8 5 tpgInit []) tpgInit =
      some [⟨0, 1, -1/2, 1/4⟩, ⟨1, 1, -1/2, 1/4⟩, ⟨2, 1, -1/2, 1/4⟩, ⟨3, 1, 1, 1/4⟩] ∧
    twoPlayerGuessIt.isTerminal (twoPlayerGuessIt.takeAction tpgInit 3) = true ∧
    twoPlayerGuessIt.terminalValue (twoPlayerGuessIt.takeAction tpgInit 3) 0 = 1 := by
  refine ⟨?_, ?_, ?_⟩ <;> with_unfolding_all rfl

/-- Claim C6. In one-player 2×2 GuessIt with a uniform prior, after the
second simulate(init) the tree has exactly 2 nodes, edge (init, a₀) has
(N, Q, P) = (1, 1/2, 1/4), and edge (init, a₁) has (0, 0, 1/4) (matching
test_one_player_guess_it). -/
theorem C6_one_player_guess_it :
    (simN onePlayerGuessIt opgEval 8 2 opgInit []).length = 2 ∧
    lookupTree (simN onePlayerGuessIt opgEval 8 2 opgInit []) opgInit =
      some [⟨0, 1, 1/2, 1/4⟩, ⟨1, 0, 0, 1/4⟩, ⟨2, 0, 0, 1/4⟩, ⟨3, 0, 0, 1/4⟩] := by
  refine ⟨?_, ?_⟩ <;> with_unfolding_all rfl

/-! ### Claim C2: counterexample and amended backup rule -/

/-- Counterexample to claim C2. In linear LeapFrog the 6th simulation reaches
the terminal state 5, whose current player — the player who would move next —
is player 2. The claim's uniform two-valued rule would hand the stack entry
at state 3 (current player 0, a different player than player 2) the value
-terminal_value[2] = 1, updating its edge from (1, -1/2) to (2, 1/4); the
engine instead updates it to (2, -3/4), matching
test_three_player_linear_leap_frog: that parent receives its own entry
terminal_value[0] = -1. -/
theorem C2_counterexample :
    lookupTree (simN linearLeapFrog lfEval 8 5 0 []) 3 = some [⟨0, 1, -1/2, 1⟩] ∧
    lookupTree (simN linearLeapFrog lfEval 8 6 0 []) 3 = some [⟨0, 2, -3/4, 1⟩] ∧
    linearLeapFrog.isTerminal 5 = true ∧
    linearLeapFrog.currentPlayer 5 = 2 ∧
    linearLeapFrog.currentPlayer 3 = 0 ∧
    claimSign (linearLeapFrog.currentPlayer 3) (linearLeapFrog.currentPlayer 5)
      (linearLeapFrog.terminalValue 5 (linearLeapFrog.currentPlayer 5)) = 1 ∧
    updEdge (claimSign (linearLeapFrog.currentPlayer 3) (linearLeapFrog.currentPlayer 5)
        (linearLeapFrog.terminalValue 5 (linearLeapFrog.currentPlayer 5)))
      ⟨0, 1, -1/2, 1⟩ = ⟨0, 2, 1/4, 1⟩ ∧
    (⟨0, 2, 1/4, 1⟩ : Edge) ≠ ⟨0, 2, -3/4, 1⟩ := by
  refine ⟨?_, ?_, ?_, ?_, ?_, ?_, ?_, ?_⟩
  · with_unfolding_all rfl
  · with_unfolding_all rfl
  · with_unfolding_all rfl
  · with_unfolding_all rfl
  · with_unfolding_all rfl
  · with_unfolding_all rfl
  · with_unfolding_all rfl
  · intro h
    have : (1/4 : ℚ) = -3/4 := congrArg Edge.Q h
    norm_num at this

theorem backup_sign_rule {σ : Type} [DecidableEq σ] (g : GameM σ) :
    ∀ (stack : List (σ × ℕ)) (lp : ℕ) (val : ℚ) (w : ℕ → ℚ) (t : STree σ),
      w lp = val → (∀ p, p ≠ lp → w p = 0 ∨ w p = -val) →
      backup g stack w lp t = backupScalar g stack lp val t := by
  intro stack
  induction stack with
  | nil => intro lp val w t h1 h2; rfl
  | cons si rest ih =>
    obtain ⟨s, i⟩ := si
    intro lp val w t hwl hw
    simp only [backup, backupScalar]
    by_cases hz : w (g.currentPlayer s) = 0
    · rw [if_pos hz]
      have hcs : claimSign (g.currentPlayer s) lp val = -(w lp) := by
        rw [claimSign, hwl]
        by_cases hpl : g.currentPlayer s = lp
        · rw [if_pos hpl]
          rw [hpl, hwl] at hz
          rw [hz]; ring
        · rw [if_neg hpl]
      rw [hcs]
      apply ih
      · by_cases hpl : g.currentPlayer s = lp
        · have hval0 : val = 0 := by rw [← hwl, ← hpl]; exact hz
          rw [hpl, Function.update_same, hwl, hval0]
          exact neg_zero
        · rw [Function.update_noteq (fun hc => hpl hc.symm), hwl]
      · intro p hp
        by_cases hps : p = g.currentPlayer s
        · subst hps
          rw [Function.update_same, hwl]
          exact Or.inr rfl
        · rw [Function.update_noteq hps]
          exact hw p hp
    · rw [if_neg hz]
      have hval : w (g.currentPlayer s) = claimSign (g.currentPlayer s) lp val := by
        by_cases hpl : g.currentPlayer s = lp
        · rw [claimSign, if_pos hpl, hpl, hwl]
        · rcases hw _ hpl with h | h
          · exact absurd h hz
          · rw [claimSign, if_neg hpl, h]
      rw [hval]
      exact ih lp val w _ hwl hw

theorem backup_no_fill {σ : Type} [DecidableEq σ] (g : GameM σ) :
    ∀ (stack : List (σ × ℕ)) (v : ℕ → ℚ) (lp : ℕ) (t : STree σ),
      (∀ e ∈ stack, v (g.currentPlayer e.1) ≠ 0) →
      backup g stack v lp t = backupOwn g stack v t := by
  intro stack
  induction stack with
  | nil => intro v lp t h; rfl
  | cons si rest ih =>
    obtain ⟨s, i⟩ := si
    intro v lp t h
    have hz : v (g.currentPlayer s) ≠ 0 := h (s, i) (List.mem_cons_self _ _)
    simp only [backup, backupOwn, if_neg hz]
    exact ih v lp _ (fun e he => h e (List.mem_cons_of_mem _ he))

/-- Claim C2 as amended. The engine's backup walks the stack leaf-to-root
carrying the leaf's value vector, filling a zero entry for a parent player
with the negated leaf-player entry before using it. For an evaluator leaf
(vector = value at the leaf player, 0 elsewhere) this coincides with the
claimed two-valued sign rule at every stack entry; but for a terminal leaf
whose value vector is nonzero at every traversed player, every parent
receives its own entry terminal_value[parent_player] — not a value signed
against the terminal state's next-mover perspective. -/
theorem C2_backup_rule {σ : Type} [DecidableEq σ] (g : GameM σ) (ev : EvaluatorM σ)
    (s : σ) (stack : List (σ × ℕ)) (v : ℕ → ℚ) (t : STree σ)
    (hv : ∀ e ∈ stack, v (g.currentPlayer e.1) ≠ 0) :
    backup g stack (evalVec g ev s) (g.currentPlayer s) t =
      backupScalar g stack (g.currentPlayer s) (ev.value s) t ∧
    backup g stack v (g.currentPlayer s) t = backupOwn g stack v t := by
  constructor
  · apply backup_sign_rule
    · simp [evalVec]
    · intro p hp
      simp [evalVec, hp]
  · exact backup_no_fill g stack v (g.currentPlayer s) t hv

/-- Witness for C2's amended backup rule on a concrete stack. -/
theorem C2_backup_rule_w :
    backup linearLeapFrog [(0, 0)] (evalVec linearLeapFrog lfEval 1)
        (linearLeapFrog.currentPlayer 1) [] =
      backupScalar linearLeapFrog [(0, 0)] (linearLeapFrog.currentPlayer 1)
        (lfEval.value 1) [] ∧
    backup linearLeapFrog [(0, 0)] (fun _ => (1 : ℚ))
        (linearLeapFrog.currentPlayer 1) [] =
      backupOwn linearLeapFrog [(0, 0)] (fun _ => (1 : ℚ)) [] :=
  C2_backup_rule linearLeapFrog lfEval 1 [(0, 0)] (fun _ => (1 : ℚ)) []
    (fun e he => one_ne_zero)

/-! ### Claim C9: counterexample and amended visit-count law -/

/-- Counterexample to claim C9's equality rider: after k = 1 simulate(init)
calls into an empty tree from the non-terminal one-player GuessIt root the
root's visit counts sum to 0, not 1 — the expanding first call does not
traverse any root edge (matching the sums asserted by
test_one_player_guess_it). -/
theorem C9_counterexample :
    onePlayerGuessIt.isTerminal opgInit = false ∧
    rootNsum (simN onePlayerGuessIt opgEval 8 1 opgInit []) opgInit = 0 ∧
    (0 : ℕ) ≠ 1 := by
  refine ⟨rfl, by with_unfolding_all rfl, by decide⟩

theorem stepGame_simulate (n : ℕ) (q : ℚ) :
    simulate stepGame stepEval 3 0 [(0, [⟨0, n, q, 1⟩])] =
      [(0, [⟨0, n + 1, q + (1 - q) / ((n : ℚ) + 1), 1⟩])] := by
  with_unfolding_all rfl

theorem stepGame_simN (k : ℕ) :
    ∃ q : ℚ, simN stepGame stepEval 3 (k + 1) 0 [] = [(0, [⟨0, k, q, 1⟩])] := by
  induction k with
  | zero => exact ⟨0, by with_unfolding_all rfl⟩
  | succ k ih =>
    obtain ⟨q, hq⟩ := ih
    refine ⟨q + (1 - q) / ((k : ℚ) + 1), ?_⟩
    have hstep : simN stepGame stepEval 3 (k + 2) 0 [] =
        simulate stepGame stepEval 3 0 (simN stepGame stepEval 3 (k + 1) 0 []) := rfl
    rw [hstep, hq, stepGame_simulate]

/-- Claim C9 as amended. For every k ≥ 1, after k simulate(r) calls from a
fixed non-terminal root r into an initially empty tree the root's edge visit
counts sum to at most k; but equality fails when r is passed to each call:
the first call expands the root without traversing any root edge, so the sum
is k − 1 (proved here for every k on the one-action step game, and matching
the sums the GuessIt tests assert). -/
theorem C9_root_visit_sum (k : ℕ) (hk : 1 ≤ k) :
    stepGame.isTerminal 0 = false ∧
    rootNsum (simN stepGame stepEval 3 k 0 []) 0 = k - 1 ∧
    rootNsum (simN stepGame stepEval 3 k 0 []) 0 ≤ k := by
  obtain ⟨j, rfl⟩ : ∃ j, k = j + 1 := ⟨k - 1, by omega⟩
  obtain ⟨q, hq⟩ := stepGame_simN j
  rw [hq]
  have hroot : rootNsum [(0, [(⟨0, j, q, 1⟩ : Edge)])] 0 = j := by
    simp [rootNsum, lookupTree, nsum]
  rw [hroot]
  refine ⟨rfl, by omega, by omega⟩

/-- Witness for C9's amended law at k = 3. -/
theorem C9_root_visit_sum_w :
    stepGame.isTerminal 0 = false ∧
    rootNsum (simN stepGame stepEval 3 3 0 []) 0 = 3 - 1 ∧
    rootNsum (simN stepGame stepEval 3 3 0 []) 0 ≤ 3 :=
  C9_root_visit_sum 3 (by decide)

/-! ### Tree bookkeeping lemmas -/

theorem lookupTree_cons {σ : Type} [DecidableEq σ] (a : σ) (es : List Edge)
    (rest : STree σ) (s : σ) :
    lookupTree ((a, es) :: rest) s = if s = a then some es else lookupTree rest s := rfl

theorem updateTree_cons {σ : Type} [DecidableEq σ] (a : σ) (es : List Edge)
    (rest : STree σ) (s' : σ) (i : ℕ) (val : ℚ) :
    updateTree ((a, es) :: rest) s' i val =
      (a, if a = s' then modIdx (updEdge val) i es else es) :: updateTree rest s' i val := rfl

theorem modIdx_length (f : Edge → Edge) :
    ∀ (i : ℕ) (es : List Edge), (modIdx f i es).length = es.length
  | _, [] => by simp [modIdx]
  | 0, _ :: _ => rfl
  | i + 1, e :: es => by
    simp only [modIdx, List.length_cons, modIdx_length f i es]

theorem modIdx_getD (f : Edge → Edge) :
    ∀ (i j : ℕ) (es : List Edge),
      (modIdx f i es).getD j edgeDefault =
        if i = j ∧ j < es.length then f (es.getD j edgeDefault)
        else es.getD j edgeDefault
  | i, j, [] => by simp [modIdx]
  | 0, 0, e :: es => by simp [modIdx]
  | 0, j + 1, e :: es => by simp [modIdx]
  | i + 1, 0, e :: es => by simp [modIdx]
  | i + 1, j + 1, e :: es => by
    simp only [modIdx, List.getD_cons_succ, modIdx_getD f i j es, List.length_cons]
    by_cases h1 : i = j ∧ j < es.length
    · rw [if_pos h1, if_pos (by omega)]
    · rw [if_neg h1, if_neg (by omega)]

theorem lookupTree_updateTree_ne {σ : Type} [DecidableEq σ] (s' : σ) (i : ℕ) (val : ℚ) :
    ∀ (t : STree σ) (s : σ), s ≠ s' →
      lookupTree (updateTree t s' i val) s = lookupTree t s
  | [], s, h => rfl
  | (a, es) :: rest, s, h => by
    rw [updateTree_cons, lookupTree_cons, lookupTree_cons]
    by_cases hsa : s = a
    · rw [if_pos hsa, if_pos hsa, if_neg (fun hc => h (hsa.trans hc))]
    · rw [if_neg hsa, if_neg hsa]
      exact lookupTree_updateTree_ne s' i val rest s h

theorem lookupTree_updateTree_eq {σ : Type} [DecidableEq σ] (s : σ) (i : ℕ) (val : ℚ) :
    ∀ (t : STree σ) (es : List Edge), lookupTree t s = some es →
      lookupTree (updateTree t s i val) s = some (modIdx (updEdge val) i es)
  | [], es, h => by simp [lookupTree] at h
  | (a, es') :: rest, es, h => by
    rw [lookupTree_cons] at h
    rw [updateTree_cons, lookupTree_cons]
    by_cases hsa : s = a
    · rw [if_pos hsa] at h
      obtain rfl : es' = es := by injection h
      rw [if_pos hsa, if_pos hsa.symm]
    · rw [if_neg hsa] at h
      rw [if_neg hsa]
      exact lookupTree_updateTree_eq s i val rest es h

theorem updateTree_frame {σ : Type} [DecidableEq σ] (t : STree σ) (s₁ : σ) (i₁ : ℕ)
    (x : ℚ) (s : σ) (es : List Edge) (h : lookupTree t s = some es) :
    ∃ es₁, lookupTree (updateTree t s₁ i₁ x) s = some es₁ ∧
      es₁.length = es.length ∧
      (∀ j, (es₁.getD j edgeDefault).action = (es.getD j edgeDefault).action ∧
            (es₁.getD j edgeDefault).P = (es.getD j edgeDefault).P) ∧
      (∀ j, ¬(s = s₁ ∧ j = i₁) → es₁.getD j edgeDefault = es.getD j edgeDefault) := by
  by_cases hss : s = s₁
  · subst hss
    refine ⟨modIdx (updEdge x) i₁ es, lookupTree_updateTree_eq s i₁ x t es h, ?_, ?_, ?_⟩
    · exact modIdx_length _ _ _
    · intro j
      rw [modIdx_getD]
      by_cases hc : i₁ = j ∧ j < es.length
      · rw [if_pos hc]
        exact ⟨rfl, rfl⟩
      · rw [if_neg hc]
        exact ⟨rfl, rfl⟩
    · intro j hj
      rw [modIdx_getD, if_neg (fun hc => hj ⟨rfl, hc.1.symm⟩)]
  · refine ⟨es, ?_, rfl, fun j => ⟨rfl, rfl⟩, fun j hj => rfl⟩
    rw [lookupTree_updateTree_ne s₁ i₁ x t s hss]
    exact h

theorem keysOf_updateTree {σ : Type} [DecidableEq σ] (t : STree σ) (s : σ) (i : ℕ)
    (val : ℚ) : keysOf (updateTree t s i val) = keysOf t := by
  simp only [keysOf, updateTree, List.map_map]
  rfl

theorem keysOf_backup {σ : Type} [DecidableEq σ] (g : GameM σ) :
    ∀ (stack : List (σ × ℕ)) (v : ℕ → ℚ) (lp : ℕ) (t : STree σ),
      keysOf (backup g stack v lp t) = keysOf t
  | [], _, _, _ => rfl
  | (s, i) :: rest, v, lp, t => by
    simp only [backup]
    by_cases hz : v (g.currentPlayer s) = 0
    · rw [if_pos hz, keysOf_backup g rest _ _ _, keysOf_updateTree]
    · rw [if_neg hz, keysOf_backup g rest _ _ _, keysOf_updateTree]

theorem lookupTree_backup_ne {σ : Type} [DecidableEq σ] (g : GameM σ) :
    ∀ (stack : List (σ × ℕ)) (v : ℕ → ℚ) (lp : ℕ) (t : STree σ) (s : σ),
      (∀ e ∈ stack, s ≠ e.1) →
      lookupTree (backup g stack v lp t) s = lookupTree t s
  | [], _, _, _, _, _ => rfl
  | (s₁, i₁) :: rest, v, lp, t, s, h => by
    have hne : s ≠ s₁ := h (s₁, i₁) (List.mem_cons_self _ _)
    have hrest : ∀ e ∈ rest, s ≠ e.1 := fun e he => h e (List.mem_cons_of_mem _ he)
    simp only [backup]
    by_cases hz : v (g.currentPlayer s₁) = 0
    · rw [if_pos hz, lookupTree_backup_ne g rest _ _ _ _ hrest,
        lookupTree_updateTree_ne _ _ _ _ _ hne]
    · rw [if_neg hz, lookupTree_backup_ne g rest _ _ _ _ hrest,
        lookupTree_updateTree_ne _ _ _ _ _ hne]

theorem lookupTree_backup_frame {σ : Type} [DecidableEq σ] (g : GameM σ) :
    ∀ (stack : List (σ × ℕ)) (v : ℕ → ℚ) (lp : ℕ) (t : STree σ) (s : σ) (es : List Edge),
      lookupTree t s = some es →
      ∃ es', lookupTree (backup g stack v lp t) s = some es' ∧
        es'.length = es.length ∧
        (∀ j, (es'.getD j edgeDefault).action = (es.getD j edgeDefault).action ∧
              (es'.getD j edgeDefault).P = (es.getD j edgeDefault).P) ∧
        (∀ j, (s, j) ∉ stack → es'.getD j edgeDefault = es.getD j edgeDefault) := by
  intro stack
  induction stack with
  | nil =>
    intro v lp t s es h
    exact ⟨es, h, rfl, fun j => ⟨rfl, rfl⟩, fun j hj => rfl⟩
  | cons si rest ih =>
    obtain ⟨s₁, i₁⟩ := si
    intro v lp t s es h
    have key : ∀ (x : ℚ) (v₂ : ℕ → ℚ),
        ∃ es', lookupTree (backup g rest v₂ lp (updateTree t s₁ i₁ x)) s = some es' ∧
          es'.length = es.length ∧
          (∀ j, (es'.getD j edgeDefault).action = (es.getD j edgeDefault).action ∧
                (es'.getD j edgeDefault).P = (es.getD j edgeDefault).P) ∧
          (∀ j, (s, j) ∉ (s₁, i₁) :: rest →
            es'.getD j edgeDefault = es.getD j edgeDefault) := by
      intro x v₂
      obtain ⟨es₁, h1, hlen1, hap1, hunch1⟩ := updateTree_frame t s₁ i₁ x s es h
      obtain ⟨es', h2, hlen2, hap2, hunch2⟩ := ih v₂ lp (updateTree t s₁ i₁ x) s es₁ h1
      refine ⟨es', h2, hlen2.trans hlen1, ?_, ?_⟩
      · intro j
        exact ⟨(hap2 j).1.trans (hap1 j).1, (hap2 j).2.trans (hap1 j).2⟩
      · intro j hj
        have hj1 : ¬(s = s₁ ∧ j = i₁) := by
          rintro ⟨rfl, rfl⟩
          exact hj (List.mem_cons_self _ _)
        have hj2 : (s, j) ∉ rest := fun hc => hj (List.mem_cons_of_mem _ hc)
        exact (hunch2 j hj2).trans (hunch1 j hj1)
    simp only [backup]
    by_cases hz : v (g.currentPlayer s₁) = 0
    · rw [if_pos hz]
      exact key _ _
    · rw [if_neg hz]
      exact key _ _

theorem lookupTree_ne_none_of_some {σ : Type} [DecidableEq σ] (t : STree σ) (s : σ)
    (es : List Edge) (h : lookupTree t s = some es) : lookupTree t s ≠ none := by
  rw [h]
  exact Option.some_ne_none es

/-! ### Shape of one traversal -/

theorem simLoop_shape {σ : Type} [DecidableEq σ] (g : GameM σ) (ev : EvaluatorM σ) :
    ∀ (fuel : ℕ) (s : σ) (t : STree σ) (stack : List (σ × ℕ))
      (t' : STree σ) (out : List (σ × ℕ)) (leaf : LeafInfo σ),
      simLoop g ev fuel s t stack = some (t', out, leaf) →
      (∃ pre, out = pre ++ stack ∧ ∀ x ∈ pre, lookupTree t x.1 ≠ none) ∧
      ((∃ sL, leaf = .term sL ∧ g.isTerminal sL = true ∧
          t' = backup g out (g.terminalValue sL) (g.currentPlayer sL) t) ∨
       (∃ sL, leaf = .expanded sL ∧ g.isTerminal sL = false ∧ lookupTree t sL = none ∧
          t' = backup g out (evalVec g ev sL) (g.currentPlayer sL)
              (insertTree t sL (expandEdges g ev sL)))) := by
  intro fuel
  induction fuel with
  | zero =>
    intro s t stack t' out leaf h
    exact absurd h (by simp [simLoop])
  | succ fuel ih =>
    intro s t stack t' out leaf h
    rw [simLoop] at h
    by_cases hterm : g.isTerminal s = true
    · rw [if_pos hterm] at h
      simp only [Option.some.injEq, Prod.mk.injEq] at h
      obtain ⟨h1, h2, h3⟩ := h
      subst h1; subst h2; subst h3
      refine ⟨⟨[], by simp, by simp⟩, Or.inl ⟨s, rfl, hterm, rfl⟩⟩
    · rw [if_neg hterm] at h
      rcases hl : lookupTree t s with _ | es
      · rw [hl] at h
        simp only [Option.some.injEq, Prod.mk.injEq] at h
        obtain ⟨h1, h2, h3⟩ := h
        subst h1; subst h2; subst h3
        exact ⟨⟨[], by simp, by simp⟩,
          Or.inr ⟨s, rfl, Bool.not_eq_true _ ▸ hterm, hl, rfl⟩⟩
      · rw [hl] at h
        obtain ⟨⟨pre, hout, hpre⟩, hdisj⟩ := ih _ t _ t' out leaf h
        refine ⟨⟨pre ++ [(s, selectEdge es)], ?_, ?_⟩, hdisj⟩
        · rw [hout, List.append_assoc, List.singleton_append]
        · intro x hx
          rcases List.mem_append.mp hx with hx | hx
          · exact hpre x hx
          · rw [List.mem_singleton.mp hx]
            exact lookupTree_ne_none_of_some t s es hl

theorem keysOf_insertTree {σ : Type} (t : STree σ) (s : σ) (es : List Edge) :
    keysOf (insertTree t s es) = s :: keysOf t := rfl

theorem simLoop_keys {σ : Type} [DecidableEq σ] (g : GameM σ) (ev : EvaluatorM σ)
    (fuel : ℕ) (s₀ : σ) (t t' : STree σ) (out : List (σ × ℕ)) (leaf : LeafInfo σ)
    (h : simLoop g ev fuel s₀ t [] = some (t', out, leaf)) :
    (∃ sL, leaf = .term sL ∧ keysOf t' = keysOf t) ∨
    (∃ sL, leaf = .expanded sL ∧ g.isTerminal sL = false ∧
      keysOf t' = sL :: keysOf t) := by
  obtain ⟨-, hdisj⟩ := simLoop_shape g ev fuel s₀ t [] t' out leaf h
  rcases hdisj with ⟨sL, hleaf, -, ht'⟩ | ⟨sL, hleaf, hnt, -, ht'⟩
  · exact Or.inl ⟨sL, hleaf, by rw [ht', keysOf_backup]⟩
  · exact Or.inr ⟨sL, hleaf, hnt, by rw [ht', keysOf_backup, keysOf_insertTree]⟩

theorem simLoop_expanded_lookup {σ : Type} [DecidableEq σ] (g : GameM σ)
    (ev : EvaluatorM σ) (fuel : ℕ) (s₀ : σ) (t t' : STree σ) (out : List (σ × ℕ))
    (sL : σ) (h : simLoop g ev fuel s₀ t [] = some (t', out, .expanded sL)) :
    lookupTree t sL = none ∧ lookupTree t' sL = some (expandEdges g ev sL) := by
  obtain ⟨⟨pre, hout, hpre⟩, hdisj⟩ := simLoop_shape g ev fuel s₀ t [] t' out _ h
  rw [List.append_nil] at hout
  subst hout
  rcases hdisj with ⟨sL', hleaf, -, -⟩ | ⟨sL', hleaf, -, hnone, ht'⟩
  · exact LeafInfo.noConfusion hleaf
  · have hss : sL = sL' := by injection hleaf
    subst hss
    refine ⟨hnone, ?_⟩
    rw [ht']
    have hsout : ∀ e ∈ out, sL ≠ e.1 := by
      intro e he hc
      exact hpre e he (hc ▸ hnone)
    rw [lookupTree_backup_ne g out _ _ _ sL hsout]
    show lookupTree ((sL, expandEdges g ev sL) :: t) sL = _
    rw [lookupTree_cons, if_pos rfl]

theorem simLoop_edge_frame {σ : Type} [DecidableEq σ] (g : GameM σ) (ev : EvaluatorM σ)
    (fuel : ℕ) (s₀ : σ) (t t' : STree σ) (out : List (σ × ℕ)) (leaf : LeafInfo σ)
    (h : simLoop g ev fuel s₀ t [] = some (t', out, leaf))
    (s : σ) (es : List Edge) (hs : lookupTree t s = some es) :
    ∃ es', lookupTree t' s = some es' ∧
      es'.length = es.length ∧
      (∀ j, (es'.getD j edgeDefault).action = (es.getD j edgeDefault).action ∧
            (es'.getD j edgeDefault).P = (es.getD j edgeDefault).P) ∧
      (∀ j, (s, j) ∉ out → es'.getD j edgeDefault = es.getD j edgeDefault) := by
  obtain ⟨-, hdisj⟩ := simLoop_shape g ev fuel s₀ t [] t' out leaf h
  rcases hdisj with ⟨sL, -, -, ht'⟩ | ⟨sL, -, -, hnone, ht'⟩
  · rw [ht']
    exact lookupTree_backup_frame g out _ _ t s es hs
  · rw [ht']
    have hne : s ≠ sL := by
      intro hc
      rw [hc, hnone] at hs
      cases hs
    have hins : lookupTree (insertTree t sL (expandEdges g ev sL)) s = some es := by
      show lookupTree ((sL, expandEdges g ev sL) :: t) s = some es
      rw [lookupTree_cons, if_neg hne]
      exact hs
    exact lookupTree_backup_frame g out _ _ _ s es hins

theorem expandEdges_mem_NQ {σ : Type} (g : GameM σ) (ev : EvaluatorM σ) (s : σ)
    (e : Edge) (he : e ∈ expandEdges g ev s) : e.N = 0 ∧ e.Q = 0 := by
  rw [expandEdges] at he
  obtain ⟨p, hmem, rfl⟩ := List.mem_map.mp he
  exact ⟨rfl, rfl⟩

/-! ### Claim C7 -/

/-- Claim C7. Terminal game states are never keys of the tree: simulate
preserves the all-keys-non-terminal invariant (the only key a call can add
is the expanded leaf, which the loop only creates for non-terminal states);
a traversal whose leaf is terminal leaves the key set unchanged; and
simulate called on a terminal state is a no-op on the tree. -/
theorem C7_terminal_not_inserted {σ : Type} [DecidableEq σ] (g : GameM σ)
    (ev : EvaluatorM σ) (fuel : ℕ) (s₀ : σ) (t : STree σ) :
    ((∀ s ∈ keysOf t, g.isTerminal s = false) →
      ∀ s' ∈ keysOf (simulate g ev fuel s₀ t), g.isTerminal s' = false) ∧
    (g.isTerminal s₀ = true → simulate g ev fuel s₀ t = t) ∧
    (∀ t' out sL, simLoop g ev fuel s₀ t [] = some (t', out, .term sL) →
      keysOf t' = keysOf t) := by
  refine ⟨?_, ?_, ?_⟩
  · intro hT s' hs'
    rcases hsl : simLoop g ev fuel s₀ t [] with _ | r
    · rw [simulate, hsl] at hs'
      exact hT s' hs'
    · obtain ⟨t', out, leaf⟩ := r
      rw [simulate, hsl] at hs'
      rcases simLoop_keys g ev fuel s₀ t t' out leaf hsl with
        ⟨sL, -, hkeys⟩ | ⟨sL, -, hnt, hkeys⟩
      · rw [hkeys] at hs'
        exact hT s' hs'
      · rw [hkeys] at hs'
        rcases List.mem_cons.mp hs' with rfl | hs'
        · exact hnt
        · exact hT s' hs'
  · intro hterm
    cases fuel with
    | zero =>
      rw [simulate, simLoop]
    | succ fuel =>
      rw [simulate, simLoop, if_pos hterm]
      rfl
  · intro t' out sL hsl
    rcases simLoop_keys g ev fuel s₀ t t' out _ hsl with
      ⟨sL', -, hkeys⟩ | ⟨sL', hleaf, -, -⟩
    · exact hkeys
    · exact LeafInfo.noConfusion hleaf

/-- Witness for C7 on the one-player GuessIt terminal state. -/
theorem C7_terminal_not_inserted_w :
    (∀ s' ∈ keysOf (simulate onePlayerGuessIt opgEval 1 [true, true, true, true]
        ([] : STree (List Bool))), onePlayerGuessIt.isTerminal s' = false) ∧
    simulate onePlayerGuessIt opgEval 1 [true, true, true, true]
      ([] : STree (List Bool)) = [] ∧
    keysOf ([] : STree (List Bool)) = keysOf ([] : STree (List Bool)) :=
  ⟨(C7_terminal_not_inserted onePlayerGuessIt opgEval 1 [true, true, true, true] []).1
      (fun s hs => absurd hs (List.not_mem_nil s)),
   (C7_terminal_not_inserted onePlayerGuessIt opgEval 1 [true, true, true, true] []).2.1
      (by with_unfolding_all rfl),
   (C7_terminal_not_inserted onePlayerGuessIt opgEval 1 [true, true, true, true] []).2.2
      [] [] [true, true, true, true] (by with_unfolding_all rfl)⟩

/-! ### Claim C10 -/

/-- Claim C10 (frame property). A simulate call that completes a traversal
updates only the edge statistics along the traversal stack: the freshly
created node's edges all carry N = 0 and Q = 0 (with P the masked prior);
every tree node whose state is neither on the stack nor the new leaf is
mapped to exactly the same edge table; and on every pre-existing node each
edge keeps its action and P, and keeps N and Q unless that (state, index)
pair was traversed. -/
theorem C10_frame {σ : Type} [DecidableEq σ] (g : GameM σ) (ev : EvaluatorM σ)
    (fuel : ℕ) (s₀ : σ) (t t' : STree σ) (out : List (σ × ℕ)) (leaf : LeafInfo σ)
    (h : simLoop g ev fuel s₀ t [] = some (t', out, leaf)) :
    (∀ sL, leaf = .expanded sL →
      lookupTree t' sL = some (expandEdges g ev sL) ∧
      ∀ e ∈ expandEdges g ev sL, e.N = 0 ∧ e.Q = 0) ∧
    (∀ s, (∀ e ∈ out, s ≠ e.1) → (∀ sL, leaf = .expanded sL → s ≠ sL) →
      lookupTree t' s = lookupTree t s) ∧
    (∀ s es, lookupTree t s = some es →
      ∃ es', lookupTree t' s = some es' ∧
        es'.length = es.length ∧
        (∀ j, (es'.getD j edgeDefault).action = (es.getD j edgeDefault).action ∧
              (es'.getD j edgeDefault).P = (es.getD j edgeDefault).P) ∧
        (∀ j, (s, j) ∉ out → es'.getD j edgeDefault = es.getD j edgeDefault)) := by
  refine ⟨?_, ?_, ?_⟩
  · rintro sL rfl
    exact ⟨(simLoop_expanded_lookup g ev fuel s₀ t t' out sL h).2,
      fun e he => expandEdges_mem_NQ g ev sL e he⟩
  · intro s hsout hsL
    obtain ⟨-, hdisj⟩ := simLoop_shape g ev fuel s₀ t [] t' out leaf h
    rcases hdisj with ⟨sL, -, -, ht'⟩ | ⟨sL, hleaf, -, -, ht'⟩
    · rw [ht', lookupTree_backup_ne g out _ _ t s hsout]
    · rw [ht', lookupTree_backup_ne g out _ _ _ s hsout]
      show lookupTree ((sL, expandEdges g ev sL) :: t) s = lookupTree t s
      rw [lookupTree_cons, if_neg (hsL sL hleaf)]
  · intro s es hs
    exact simLoop_edge_frame g ev fuel s₀ t t' out leaf h s es hs

/-- Witness for C10 at the second one-player GuessIt simulation. -/
theorem C10_frame_w :
    (∀ sL, (LeafInfo.expanded [true, false, false, false] : LeafInfo (List Bool)) =
        .expanded sL →
      lookupTree
        [([true, false, false, false],
            [⟨1, 0, 0, 1/3⟩, ⟨2, 0, 0, 1/3⟩, ⟨3, 0, 0, 1/3⟩]),
         ([false, false, false, false],
            [⟨0, 1, 1/2, 1/4⟩, ⟨1, 0, 0, 1/4⟩, ⟨2, 0, 0, 1/4⟩, ⟨3, 0, 0, 1/4⟩])] sL =
        some (expandEdges onePlayerGuessIt opgEval sL) ∧
      ∀ e ∈ expandEdges onePlayerGuessIt opgEval sL, e.N = 0 ∧ e.Q = 0) ∧
    (∀ s, (∀ e ∈ [([false, false, false, false], 0)], s ≠ e.1) →
      (∀ sL, (LeafInfo.expanded [true, false, false, false] : LeafInfo (List Bool)) =
        .expanded sL → s ≠ sL) →
      lookupTree
        [([true, false, false, false],
            [⟨1, 0, 0, 1/3⟩, ⟨2, 0, 0, 1/3⟩, ⟨3, 0, 0, 1/3⟩]),
         ([false, false, false, false],
            [⟨0, 1, 1/2, 1/4⟩, ⟨1, 0, 0, 1/4⟩, ⟨2, 0, 0, 1/4⟩, ⟨3, 0, 0, 1/4⟩])] s =
      lookupTree
        [([false, false, false, false],
            [⟨0, 0, 0, 1/4⟩, ⟨1, 0, 0, 1/4⟩, ⟨2, 0, 0, 1/4⟩, ⟨3, 0, 0, 1/4⟩])] s) ∧
    (∀ s es,
      lookupTree
        [([false, false, false, false],
            [⟨0, 0, 0, 1/4⟩, ⟨1, 0, 0, 1/4⟩, ⟨2, 0, 0, 1/4⟩, ⟨3, 0, 0, 1/4⟩])] s =
        some es →
      ∃ es', lookupTree
        [([true, false, false, false],
            [⟨1, 0, 0, 1/3⟩, ⟨2, 0, 0, 1/3⟩, ⟨3, 0, 0, 1/3⟩]),
         ([false, false, false, false],
            [⟨0, 1, 1/2, 1/4⟩, ⟨1, 0, 0, 1/4⟩, ⟨2, 0, 0, 1/4⟩, ⟨3, 0, 0, 1/4⟩])] s =
          some es' ∧
        es'.length = es.length ∧
        (∀ j, (es'.getD j edgeDefault).action = (es.getD j edgeDefault).action ∧
              (es'.getD j edgeDefault).P = (es.getD j edgeDefault).P) ∧
        (∀ j, (s, j) ∉ [([false, false, false, false], 0)] →
          es'.getD j edgeDefault = es.getD j edgeDefault)) :=
  C10_frame onePlayerGuessIt opgEval 8 [false, false, false, false]
    [([false, false, false, false],
        [⟨0, 0, 0, 1/4⟩, ⟨1, 0, 0, 1/4⟩, ⟨2, 0, 0, 1/4⟩, ⟨3, 0, 0, 1/4⟩])]
    [([true, false, false, false],
        [⟨1, 0, 0, 1/3⟩, ⟨2, 0, 0, 1/3⟩, ⟨3, 0, 0, 1/3⟩]),
     ([false, false, false, false],
        [⟨0, 1, 1/2, 1/4⟩, ⟨1, 0, 0, 1/4⟩, ⟨2, 0, 0, 1/4⟩, ⟨3, 0, 0, 1/4⟩])]
    [([false, false, false, false], 0)]
    (.expanded [true, false, false, false])
    (by with_unfolding_all rfl)

/-! ### Claim C8 -/

theorem sum_map_const_rat {α : Type} (l : List α) (c : ℚ) :
    (l.map (fun _ => c)).sum = (l.length : ℚ) * c := by
  induction l with
  | nil => simp
  | cons x xs ih =>
    simp only [List.map_cons, List.sum_cons, List.length_cons, ih]
    push_cast
    ring

theorem sum_map_div_rat (l : List ℚ) (c : ℚ) :
    (l.map (fun x => x / c)).sum = l.sum / c := by
  induction l with
  | nil => simp
  | cons x xs ih =>
    simp only [List.map_cons, List.sum_cons, ih, add_div]

theorem maskedPrior_length (legal : List ℕ) (pr : ℕ → ℚ) :
    (maskedPrior legal pr).length = legal.length := by
  rw [maskedPrior]
  by_cases h : (legal.map pr).sum = 0
  · rw [if_pos h, List.length_map]
  · rw [if_neg h, List.length_map, List.length_map]

theorem expandEdges_map_P {σ : Type} (g : GameM σ) (ev : EvaluatorM σ) (s : σ) :
    (expandEdges g ev s).map Edge.P = maskedPrior (g.legalActions s) (ev.prior s) := by
  rw [expandEdges, List.map_map]
  have hcomp : (Edge.P ∘ fun p : ℕ × ℚ => (⟨p.1, 0, 0, p.2⟩ : Edge)) =
      Prod.snd := rfl
  rw [hcomp]
  exact List.map_snd_zip _ _ (le_of_eq (maskedPrior_length _ _))

theorem maskedPrior_nonneg_sum (legal : List ℕ) (pr : ℕ → ℚ) (hne : legal ≠ [])
    (hpos : ∀ a ∈ legal, 0 ≤ pr a) :
    (∀ p ∈ maskedPrior legal pr, 0 ≤ p) ∧ (maskedPrior legal pr).sum = 1 := by
  have hlen : (0 : ℚ) < (legal.length : ℚ) := by
    have : 0 < legal.length := List.length_pos.mpr hne
    exact_mod_cast this
  rw [maskedPrior]
  by_cases h : (legal.map pr).sum = 0
  · rw [if_pos h]
    constructor
    · intro p hp
      rcases List.mem_map.mp hp with ⟨a, -, rfl⟩
      positivity
    · rw [sum_map_const_rat]
      field_simp
  · rw [if_neg h]
    have hsum_nonneg : 0 ≤ (legal.map pr).sum := by
      refine List.sum_nonneg ?_
      intro x hx
      rcases List.mem_map.mp hx with ⟨a, ha, rfl⟩
      exact hpos a ha
    have hsum_pos : 0 < (legal.map pr).sum := lt_of_le_of_ne hsum_nonneg (Ne.symm h)
    constructor
    · intro p hp
      rcases List.mem_map.mp hp with ⟨x, hx, rfl⟩
      rcases List.mem_map.mp hx with ⟨a, ha, rfl⟩
      exact div_nonneg (hpos a ha) (le_of_lt hsum_pos)
    · rw [sum_map_div_rat]
      field_simp

theorem maskedPrior_uniform (legal : List ℕ) (c : ℚ) (hc : 0 < c) :
    maskedPrior legal (fun _ => c) =
      legal.map (fun _ => 1 / (legal.length : ℚ)) := by
  rcases eq_or_ne legal [] with rfl | hne
  · rfl
  · have hlen : (0 : ℚ) < (legal.length : ℚ) := by
      have : 0 < legal.length := List.length_pos.mpr hne
      exact_mod_cast this
    rw [maskedPrior, sum_map_const_rat, if_neg (by positivity)]
    rw [List.map_map]
    refine List.map_congr_left ?_
    intro a ha
    show c / ((legal.length : ℚ) * c) = 1 / (legal.length : ℚ)
    rw [div_eq_div_iff (by positivity) (by positivity)]
    ring

/-- Claim C8. Every node the engine inserts carries the evaluator's prior
masked to the legal actions and renormalized: the masked prior is
nonnegative and sums to 1 whenever the evaluator prior is nonnegative and a
legal action exists; a masked mass of zero falls back to the uniform
distribution over legal actions; a constant (uniform) evaluator prior yields
P = 1/m on each of m legal actions; the expanded node stores exactly these
priors; and a simulate call never changes the P (nor the action) of any
already-stored edge. -/
theorem C8_prior_invariant {σ : Type} [DecidableEq σ] (g : GameM σ)
    (ev : EvaluatorM σ) (fuel : ℕ) (s₀ : σ) (t : STree σ) :
    (∀ (legal : List ℕ) (pr : ℕ → ℚ), legal ≠ [] → (∀ a ∈ legal, 0 ≤ pr a) →
      (∀ p ∈ maskedPrior legal pr, 0 ≤ p) ∧ (maskedPrior legal pr).sum = 1) ∧
    (∀ (legal : List ℕ) (pr : ℕ → ℚ), (legal.map pr).sum = 0 →
      maskedPrior legal pr = legal.map (fun _ => 1 / (legal.length : ℚ))) ∧
    (∀ (legal : List ℕ) (c : ℚ), 0 < c →
      maskedPrior legal (fun _ => c) =
        legal.map (fun _ => 1 / (legal.length : ℚ))) ∧
    (∀ t' out sL, simLoop g ev fuel s₀ t [] = some (t', out, .expanded sL) →
      lookupTree t' sL = some (expandEdges g ev sL) ∧
      (expandEdges g ev sL).map Edge.P =
        maskedPrior (g.legalActions sL) (ev.prior sL)) ∧
    (∀ s es, lookupTree t s = some es →
      ∃ es', lookupTree (simulate g ev fuel s₀ t) s = some es' ∧
        es'.length = es.length ∧
        (∀ j, (es'.getD j edgeDefault).action = (es.getD j edgeDefault).action ∧
              (es'.getD j edgeDefault).P = (es.getD j edgeDefault).P)) := by
  refine ⟨maskedPrior_nonneg_sum, ?_, maskedPrior_uniform, ?_, ?_⟩
  · intro legal pr h
    rw [maskedPrior, if_pos h]
  · intro t' out sL hsl
    exact ⟨(simLoop_expanded_lookup g ev fuel s₀ t t' out sL hsl).2,
      expandEdges_map_P g ev sL⟩
  · intro s es hs
    rcases hsl : simLoop g ev fuel s₀ t [] with _ | r
    · refine ⟨es, ?_, rfl, fun j => ⟨rfl, rfl⟩⟩
      rw [simulate, hsl]
      exact hs
    · obtain ⟨t', out, leaf⟩ := r
      obtain ⟨es', h1, h2, h3, -⟩ :=
        simLoop_edge_frame g ev fuel s₀ t t' out leaf hsl s es hs
      refine ⟨es', ?_, h2, h3⟩
      rw [simulate, hsl]
      exact h1

/-- Witness for C8 at the second one-player GuessIt simulation. -/
theorem C8_prior_invariant_w :
    ((∀ p ∈ maskedPrior [0, 1] (fun _ => (1 : ℚ) / 4), 0 ≤ p) ∧
      (maskedPrior [0, 1] (fun _ => (1 : ℚ) / 4)).sum = 1) ∧
    maskedPrior [0, 1] (fun _ => (0 : ℚ)) =
      ([0, 1] : List ℕ).map (fun _ => 1 / ((([0, 1] : List ℕ).length : ℕ) : ℚ)) ∧
    maskedPrior [0, 1] (fun _ => (1 : ℚ) / 4) =
      ([0, 1] : List ℕ).map (fun _ => 1 / ((([0, 1] : List ℕ).length : ℕ) : ℚ)) ∧
    (lookupTree
        [([true, false, false, false],
            [⟨1, 0, 0, 1/3⟩, ⟨2, 0, 0, 1/3⟩, ⟨3, 0, 0, 1/3⟩]),
         ([false, false, false, false],
            [⟨0, 1, 1/2, 1/4⟩, ⟨1, 0, 0, 1/4⟩, ⟨2, 0, 0, 1/4⟩, ⟨3, 0, 0, 1/4⟩])]
        [true, false, false, false] =
        some (expandEdges onePlayerGuessIt opgEval [true, false, false, false]) ∧
      (expandEdges onePlayerGuessIt opgEval [true, false, false, false]).map Edge.P =
        maskedPrior (onePlayerGuessIt.legalActions [true, false, false, false])
          (opgEval.prior [true, false, false, false])) ∧
    (∃ es', lookupTree (simulate onePlayerGuessIt opgEval 8
          [false, false, false, false]
          [([false, false, false, false],
              [⟨0, 0, 0, 1/4⟩, ⟨1, 0, 0, 1/4⟩, ⟨2, 0, 0, 1/4⟩, ⟨3, 0, 0, 1/4⟩])])
        [false, false, false, false] = some es' ∧
      es'.length =
        ([⟨0, 0, 0, 1/4⟩, ⟨1, 0, 0, 1/4⟩, ⟨2, 0, 0, 1/4⟩,
          (⟨3, 0, 0, 1/4⟩ : Edge)]).length ∧
      (∀ j, (es'.getD j edgeDefault).action =
          (([⟨0, 0, 0, 1/4⟩, ⟨1, 0, 0, 1/4⟩, ⟨2, 0, 0, 1/4⟩,
            (⟨3, 0, 0, 1/4⟩ : Edge)]).getD j edgeDefault).action ∧
        (es'.getD j edgeDefault).P =
          (([⟨0, 0, 0, 1/4⟩, ⟨1, 0, 0, 1/4⟩, ⟨2, 0, 0, 1/4⟩,
            (⟨3, 0, 0, 1/4⟩ : Edge)]).getD j edgeDefault).P)) := by
  have hmain := C8_prior_invariant onePlayerGuessIt opgEval 8
    [false, false, false, false]
    [([false, false, false, false],
        [⟨0, 0, 0, 1/4⟩, ⟨1, 0, 0, 1/4⟩, ⟨2, 0, 0, 1/4⟩, ⟨3, 0, 0, 1/4⟩])]
  refine ⟨hmain.1 [0, 1] (fun _ => (1 : ℚ) / 4) (by decide) (fun a ha => by norm_num),
    hmain.2.1 [0, 1] (fun _ => (0 : ℚ)) (by norm_num),
    hmain.2.2.1 [0, 1] ((1 : ℚ) / 4) (by norm_num),
    hmain.2.2.2.1
      [([true, false, false, false],
          [⟨1, 0, 0, 1/3⟩, ⟨2, 0, 0, 1/3⟩, ⟨3, 0, 0, 1/3⟩]),
       ([false, false, false, false],
          [⟨0, 1, 1/2, 1/4⟩, ⟨1, 0, 0, 1/4⟩, ⟨2, 0, 0, 1/4⟩, ⟨3, 0, 0, 1/4⟩])]
      [([false, false, false, false], 0)] [true, false, false, false]
      (by with_unfolding_all rfl),
    hmain.2.2.2.2 [false, false, false, false]
      [⟨0, 0, 0, 1/4⟩, ⟨1, 0, 0, 1/4⟩, ⟨2, 0, 0, 1/4⟩, ⟨3, 0, 0, 1/4⟩]
      (by with_unfolding_all rfl)⟩

/-! ### Claim C4 -/

theorem enumFrom_onehot_fst (r : ℕ) :
    ∀ (es : List Edge) (n : ℕ),
      ((List.enumFrom n es).map
        (fun p => (p.2.action, if p.1 = r then (1 : ℝ) else 0))).map Prod.fst =
      es.map Edge.action
  | [], _ => rfl
  | e :: es, n => by
    simp only [List.enumFrom, List.map_cons]
    rw [enumFrom_onehot_fst r es (n + 1)]

/-- Claim C4. Distribution extraction from an expanded node's edge table: at
temperature 0 all probability mass goes onto the edge of maximal visit count
(the engine's argmax index is in range, no edge has a larger N, and every
earlier edge has a strictly smaller N — canonical-order tie-break); at any
temperature τ > 0 the entry for edge i is Nᵢ^(1/τ) / Σⱼ Nⱼ^(1/τ), falling
back to the uniform distribution when every N is zero; and the output has
exactly one entry per stored edge, carrying the actions in canonical
order. -/
theorem C4_distribution (es : List Edge) (τ : ℝ) (hne : es ≠ []) :
    (argmaxN es < es.length ∧
      (∀ j, j < es.length →
        (es.getD j edgeDefault).N ≤ (es.getD (argmaxN es) edgeDefault).N) ∧
      (∀ j, j < argmaxN es →
        (es.getD j edgeDefault).N < (es.getD (argmaxN es) edgeDefault).N) ∧
      getDist es 0 = es.enum.map
        (fun p => (p.2.action, if p.1 = argmaxN es then (1 : ℝ) else 0))) ∧
    (0 < τ → (∃ e ∈ es, e.N ≠ 0) →
      getDist es τ = es.map (fun e => (e.action,
        (e.N : ℝ) ^ (1 / τ) / (es.map (fun f => (f.N : ℝ) ^ (1 / τ))).sum))) ∧
    (0 < τ → (∀ e ∈ es, e.N = 0) →
      getDist es τ = es.map (fun e => (e.action, 1 / (es.length : ℝ)))) ∧
    (getDist es τ).map Prod.fst = es.map Edge.action ∧
    (getDist es τ).length = es.length := by
  have hb : ∀ a b : Edge, (decide (b.N < a.N)) = true ↔ b.N < a.N := by
    intro a b
    simp
  have hmain := bestIdx_spec (fun a b => decide (b.N < a.N)) Edge.N hb
    edgeDefault es hne
  have hsel : argmaxN es = bestIdx (fun a b => decide (b.N < a.N)) es := rfl
  rw [← hsel] at hmain
  refine ⟨⟨hmain.1, hmain.2.1, hmain.2.2, ?_⟩, ?_, ?_, ?_, ?_⟩
  · rw [getDist, if_pos rfl]
  · intro hτ hex
    have hτ0 : τ ≠ 0 := ne_of_gt hτ
    have hall : ¬(es.all (fun e => decide (e.N = 0)) = true) := by
      rw [List.all_eq_true]
      push_neg
      obtain ⟨e, he, hN⟩ := hex
      exact ⟨e, he, by simpa using hN⟩
    rw [getDist, if_neg hτ0, if_neg hall]
  · intro hτ hall
    have hτ0 : τ ≠ 0 := ne_of_gt hτ
    have hall' : es.all (fun e => decide (e.N = 0)) = true := by
      rw [List.all_eq_true]
      intro e he
      simpa using hall e he
    rw [getDist, if_neg hτ0, if_pos hall']
  · rw [getDist]
    by_cases h0 : τ = 0
    · rw [if_pos h0]
      show ((List.enumFrom 0 es).map
          (fun p => (p.2.action, if p.1 = argmaxN es then (1 : ℝ) else 0))).map
          Prod.fst = es.map Edge.action
      exact enumFrom_onehot_fst (argmaxN es) es 0
    · rw [if_neg h0]
      by_cases hall : es.all (fun e => decide (e.N = 0)) = true
      · rw [if_pos hall, List.map_map]
        rfl
      · rw [if_neg hall, List.map_map]
        rfl
  · rw [getDist]
    by_cases h0 : τ = 0
    · rw [if_pos h0, List.length_map, List.enum_length]
    · rw [if_neg h0]
      by_cases hall : es.all (fun e => decide (e.N = 0)) = true
      · rw [if_pos hall, List.length_map]
      · rw [if_neg hall, List.length_map]

/-- Witness for C4 at a concrete single-edge node and temperature 1. -/
theorem C4_distribution_w :
    (argmaxN [⟨5, 2, 0, 1⟩] < ([⟨5, 2, 0, 1⟩] : List Edge).length ∧
      (∀ j, j < ([⟨5, 2, 0, 1⟩] : List Edge).length →
        (([⟨5, 2, 0, 1⟩] : List Edge).getD j edgeDefault).N ≤
          (([⟨5, 2, 0, 1⟩] : List Edge).getD (argmaxN [⟨5, 2, 0, 1⟩]) edgeDefault).N) ∧
      (∀ j, j < argmaxN [⟨5, 2, 0, 1⟩] →
        (([⟨5, 2, 0, 1⟩] : List Edge).getD j edgeDefault).N <
          (([⟨5, 2, 0, 1⟩] : List Edge).getD (argmaxN [⟨5, 2, 0, 1⟩]) edgeDefault).N) ∧
      getDist [⟨5, 2, 0, 1⟩] 0 = ([⟨5, 2, 0, 1⟩] : List Edge).enum.map
        (fun p => (p.2.action, if p.1 = argmaxN [⟨5, 2, 0, 1⟩] then (1 : ℝ) else 0))) ∧
    (0 < (1 : ℝ) → (∃ e ∈ ([⟨5, 2, 0, 1⟩] : List Edge), e.N ≠ 0) →
      getDist [⟨5, 2, 0, 1⟩] 1 = ([⟨5, 2, 0, 1⟩] : List Edge).map (fun e => (e.action,
        (e.N : ℝ) ^ (1 / (1 : ℝ)) /
          (([⟨5, 2, 0, 1⟩] : List Edge).map
            (fun f => (f.N : ℝ) ^ (1 / (1 : ℝ)))).sum))) ∧
    (0 < (1 : ℝ) → (∀ e ∈ ([⟨5, 2, 0, 1⟩] : List Edge), e.N = 0) →
      getDist [⟨5, 2, 0, 1⟩] 1 = ([⟨5, 2, 0, 1⟩] : List Edge).map
        (fun e => (e.action, 1 / (([⟨5, 2, 0, 1⟩] : List Edge).length : ℝ)))) ∧
    (getDist [⟨5, 2, 0, 1⟩] 1).map Prod.fst =
      ([⟨5, 2, 0, 1⟩] : List Edge).map Edge.action ∧
    (getDist [⟨5, 2, 0, 1⟩] 1).length = ([⟨5, 2, 0, 1⟩] : List Edge).length :=
  C4_distribution [⟨5, 2, 0, 1⟩] 1 (by decide)
